import Mathlib

/-!
Verification of the alignment-statistics engine of `scripts/compute_assembly_stats.py`
(MATAM repository).

The Python source is shallowly embedded: strings become `List Char`, Python `int`
becomes `Int` (or `Nat` where the source value is a count that can never go
negative), Python dictionaries become association lists with replace-or-append
insertion, and every Python operation that can raise (`IndexError` on sequence
indexing, `KeyError` on dictionary lookup, `ZeroDivisionError` on division)
is modelled by an `Option`-returning function where `none` means the program
aborts with that exception.  Python's negative-index wrap-around on `s[i]` and
`l[i] += 1` is modelled faithfully.
-/

/-- Python `int(count_str)` on a string of ASCII digits. -/
def digitsVal (s : List Char) : Nat :=
  s.foldl (fun a c => a * 10 + (c.toNat - '0'.toNat)) 0

/-- Loop body of `parse_cigar` (lines 39-50 of the source): digits accumulate
into `count_str`; any non-digit closes an operation `(c, count)` where the
count defaults to 1 when no digits were pending.  (`str.isdigit` on the ASCII
characters appearing in CIGAR strings coincides with `Char.isDigit`.) -/
def parseCigarGo (acc : List (Char × Nat)) (count_str : List Char) :
    List Char → List (Char × Nat)
  | [] => acc
  | c :: rest =>
    if c.isDigit then parseCigarGo acc (count_str ++ [c]) rest
    else
      parseCigarGo (acc ++ [(c, if count_str.isEmpty then 1 else digitsVal count_str)]) [] rest

/-- `parse_cigar` (source lines 35-52).  It is a total function: the Python
code never raises on any input string. -/
def parse_cigar (cigar : List Char) : List (Char × Nat) :=
  parseCigarGo [] [] cigar

lemma parseCigarGo_acc (l : List Char) :
    ∀ (acc : List (Char × Nat)) (cs : List Char),
      parseCigarGo acc cs l = acc ++ parseCigarGo [] cs l := by
  induction l with
  | nil => intro acc cs; simp [parseCigarGo]
  | cons c rest ih =>
    intro acc cs
    by_cases hd : c.isDigit
    · simp only [parseCigarGo, hd, if_true]
      rw [ih acc, ih []]
    · simp only [parseCigarGo, hd, if_false]
      rw [ih (acc ++ _), ih ([] ++ _)]
      simp

lemma parseCigarGo_all_digits :
    ∀ (t : List Char), (∀ d ∈ t, d.isDigit = true) →
      ∀ (acc : List (Char × Nat)) (cs : List Char), parseCigarGo acc cs t = acc := by
  intro t
  induction t with
  | nil => intro _ acc cs; rfl
  | cons c rest ih =>
    intro h acc cs
    have hc : c.isDigit = true := h c (List.mem_cons_self c rest)
    simp only [parseCigarGo, hc, if_true]
    exact ih (fun d hd => h d (List.mem_cons_of_mem c hd)) acc _

lemma parseCigarGo_append_digits (s : List Char) :
    ∀ (t : List Char), (∀ d ∈ t, d.isDigit = true) →
      ∀ (acc : List (Char × Nat)) (cs : List Char),
        parseCigarGo acc cs (s ++ t) = parseCigarGo acc cs s := by
  induction s with
  | nil =>
    intro t ht acc cs
    simpa [parseCigarGo] using parseCigarGo_all_digits t ht acc cs
  | cons c rest ih =>
    intro t ht acc cs
    by_cases hd : c.isDigit <;>
      simp only [List.cons_append, parseCigarGo, hd, if_true, if_false] <;>
      exact ih t ht _ _

/-- C1 counterexample: the string `"M"` does not start with a digit and contains
no digit at all, so the claim says `parse_cigar` must reject it; instead the
code returns the operation list `[('M', 1)]`, silently defaulting the missing
count to 1. -/
theorem c1_counterexample : parse_cigar ['M'] = [('M', 1)] := by rfl

/-- C1 (amended): `parse_cigar` never rejects any input.  A leading non-digit
operator is accepted with its count silently defaulted to 1; trailing digits
(digits not followed by an operator) are silently dropped; a string of digits
only (hence also the empty string) yields the empty operation list. -/
theorem c1_amended_parse_cigar_lenient :
    (∀ (c : Char) (s : List Char), c.isDigit = false →
      (parse_cigar (c :: s)).head? = some (c, 1)) ∧
    (∀ (s t : List Char), (∀ d ∈ t, d.isDigit = true) →
      parse_cigar (s ++ t) = parse_cigar s) ∧
    (∀ (s : List Char), (∀ d ∈ s, d.isDigit = true) → parse_cigar s = []) := by
  refine ⟨?_, ?_, ?_⟩
  · intro c s hc
    simp only [parse_cigar, parseCigarGo, hc]
    rw [if_neg (by simp), parseCigarGo_acc]
    rfl
  · intro s t ht
    exact parseCigarGo_append_digits s t ht [] []
  · intro s hs
    exact parseCigarGo_all_digits s hs [] []

/-- C1 amended witness: concrete instances — `"M"` parses to a defaulted
one-element list, `"1M5"` parses exactly like `"1M"` (the trailing `5` is
dropped), and the all-digit string `"12"` parses to the empty list. -/
theorem c1_amended_witness :
    (parse_cigar ('M' :: [])).head? = some ('M', 1) ∧
    parse_cigar (['1', 'M'] ++ ['5']) = parse_cigar ['1', 'M'] ∧
    parse_cigar ['1', '2'] = [] := by
  refine ⟨?_, ?_, ?_⟩
  · exact c1_amended_parse_cigar_lenient.1 'M' [] (by decide)
  · exact c1_amended_parse_cigar_lenient.2.1 ['1', 'M'] ['5'] (by decide)
  · exact c1_amended_parse_cigar_lenient.2.2 ['1', '2'] (by decide)

/-! ## Sequence Loader (`read_fasta_file_handle`, source lines 8-32) -/

/-- Python `line.strip()`: drop whitespace at both ends. -/
def stripChars (s : List Char) : List Char :=
  ((s.dropWhile Char.isWhitespace).reverse.dropWhile Char.isWhitespace).reverse

/-- Python `line.rstrip()`: drop whitespace at the right end. -/
def rstripChars (s : List Char) : List Char :=
  (s.reverse.dropWhile Char.isWhitespace).reverse

/-- Loop of `read_fasta_file_handle`: state is the pending `header`, the
accumulated `seqlines` and the header counter `sequence_nb` (only its
truthiness is consulted).  Iterating a Python file handle never yields the
empty string, so the source's `line[0] == '>'` test is modelled as
`line.head? = some '>'`.  Note that in the `sequence_nb == 0` branch the
source does NOT clear `seqlines`: lines read before the first header stay
accumulated. -/
def readFastaGo (header : List Char) (seqlines : List (List Char)) (sequence_nb : Nat) :
    List (List Char) → List (List Char × List Char)
  | [] => [(header, seqlines.flatten)]
  | line :: rest =>
    if line.head? = some '>' then
      if sequence_nb ≠ 0 then
        (header, seqlines.flatten) :: readFastaGo (rstripChars line.tail) [] (sequence_nb + 1) rest
      else
        readFastaGo (rstripChars line.tail) seqlines (sequence_nb + 1) rest
    else
      readFastaGo header (seqlines ++ [stripChars line]) sequence_nb rest

/-- `read_fasta_file_handle` applied to the list of lines of the input: the
full (finite) sequence of `(header, concatenated_sequence)` pairs the Python
generator yields.  The generator is total: it raises on no input. -/
def read_fasta_file_handle (lines : List (List Char)) : List (List Char × List Char) :=
  readFastaGo [] [] 0 lines

/-- Prefix the sequence of the first yielded record with `p` (used to state
what the loader does with sequence lines read before the first header). -/
def prependToFirstSeq (p : List Char) : List (List Char × List Char) → List (List Char × List Char)
  | [] => []
  | (h, s) :: tl => (h, p ++ s) :: tl

lemma readFastaGo_leading_lines (pre : List (List Char))
    (hpre : ∀ l ∈ pre, l.head? ≠ some '>') :
    ∀ (rest : List (List Char)) (h : List Char) (sl : List (List Char)),
      readFastaGo h sl 0 (pre ++ rest) =
        readFastaGo h (sl ++ pre.map stripChars) 0 rest := by
  induction pre with
  | nil => intro rest h sl; simp
  | cons line tl ih =>
    intro rest h sl
    have hline : ¬ line.head? = some '>' := hpre line (List.mem_cons_self line tl)
    have ih2 := ih (fun l hl => hpre l (List.mem_cons_of_mem line hl)) rest h
      (sl ++ [stripChars line])
    simp only [List.cons_append, readFastaGo, hline, if_false, List.map_cons,
      List.append_eq] at ih2 ⊢
    rw [ih2]
    simp

lemma readFastaGo_extra_seqlines :
    ∀ (lines : List (List Char)) (hdr : List Char) (nb : Nat), nb ≠ 0 →
      ∀ (extra sl : List (List Char)),
        readFastaGo hdr (extra ++ sl) nb lines =
          prependToFirstSeq extra.flatten (readFastaGo hdr sl nb lines) := by
  intro lines
  induction lines with
  | nil =>
    intro hdr nb _ extra sl
    simp [readFastaGo, prependToFirstSeq]
  | cons line rest ih =>
    intro hdr nb hnb extra sl
    by_cases hline : line.head? = some '>'
    · simp only [readFastaGo, hline, if_true, hnb, ne_eq, not_false_iff, if_pos,
        prependToFirstSeq]
      simp [prependToFirstSeq]
    · simp only [readFastaGo, hline, if_false]
      rw [List.append_assoc]
      exact ih hdr nb hnb extra (sl ++ [stripChars line])

/-- C9 counterexample: a sequence line appearing before any header does not
make the loader fail — on the stream `["AAA", ">h1", "CCC"]` it yields the
single record `("h1", "AAACCC")`, silently prepending the stray line to the
first record's sequence, exactly what the claim says it never does. -/
theorem c9_counterexample_prepends_leading_lines :
    read_fasta_file_handle [['A', 'A', 'A'], ['>', 'h', '1'], ['C', 'C', 'C']] =
      [(['h', '1'], ['A', 'A', 'A', 'C', 'C', 'C'])] := by rfl

/-- C9 (amended): the loader never fails on sequence lines that precede the
first header.  If a header line follows them, their stripped concatenation is
silently prepended to the first record's sequence; if no header line ever
appears, the loader yields a single record with the empty header holding those
lines. -/
theorem c9_amended_loader_lenient :
    (∀ (pre : List (List Char)) (h : List Char) (rest : List (List Char)),
      (∀ l ∈ pre, l.head? ≠ some '>') →
      read_fasta_file_handle (pre ++ ('>' :: h) :: rest) =
        prependToFirstSeq (pre.map stripChars).flatten
          (read_fasta_file_handle (('>' :: h) :: rest))) ∧
    (∀ (pre : List (List Char)), (∀ l ∈ pre, l.head? ≠ some '>') →
      read_fasta_file_handle pre = [([], (pre.map stripChars).flatten)]) := by
  constructor
  · intro pre h rest hpre
    show readFastaGo [] [] 0 _ = _
    rw [readFastaGo_leading_lines pre hpre]
    simp only [List.nil_append, readFastaGo, List.head?_cons, if_pos rfl]
    norm_num only
    have h2 := readFastaGo_extra_seqlines rest (rstripChars h) 1 one_ne_zero
      (pre.map stripChars) []
    simpa using h2
  · intro pre hpre
    show readFastaGo [] [] 0 _ = _
    have h1 := readFastaGo_leading_lines pre hpre [] [] []
    simpa [readFastaGo] using h1

/-- C9 amended witness: both parts instantiated on concrete streams. -/
theorem c9_amended_witness :
    read_fasta_file_handle [['A', 'A'], ['>', 'h'], ['C', 'C']] =
      prependToFirstSeq ([['A', 'A']].map stripChars).flatten
        (read_fasta_file_handle [['>', 'h'], ['C', 'C']]) ∧
    read_fasta_file_handle [['A', 'A']] = [([], ([['A', 'A']].map stripChars).flatten)] := by
  constructor
  · exact c9_amended_loader_lenient.1 [['A', 'A']] ['h'] [['C', 'C']] (by decide)
  · exact c9_amended_loader_lenient.2 [['A', 'A']] (by decide)

/-! ## Reference catalog loading (source lines 77-85) -/

/-- Python dictionary over string keys, as an association list with unique
keys: assignment replaces the value of an existing key in place, otherwise
appends.  Lookup of a missing key (`KeyError`) is `none`. -/
def dictGet? {α : Type} (d : List (List Char × α)) (k : List Char) : Option α :=
  match d with
  | [] => none
  | p :: rest => if p.1 = k then some p.2 else dictGet? rest k

/-- Python `d[k] = v`. -/
def dictInsert {α : Type} (d : List (List Char × α)) (k : List Char) (v : α) :
    List (List Char × α) :=
  match d with
  | [] => [(k, v)]
  | p :: rest => if p.1 = k then (k, v) :: rest else p :: dictInsert rest k v

/-- Python `header.split()[0]`: first whitespace-delimited token of the
header; `IndexError` (hence `none`) when the header is empty or whitespace. -/
def headToken (s : List Char) : Option (List Char) :=
  let t := s.dropWhile Char.isWhitespace
  if t.isEmpty then none else some (t.takeWhile (fun c => !c.isWhitespace))

/-- State built by the reference-loading loop (source lines 78-85). -/
structure RefData where
  ref_seq_dict : List (List Char × List Char)
  ref_positions_count_dict : List (List Char × List Nat)
  total_ref_length : Nat
deriving DecidableEq

/-- One iteration per `(header, seq)` pair yielded by the fasta reader:
`total_ref_length` grows by `len(seq)` for EVERY record, while the two
dictionaries keep only the last entry per id. -/
def loadRefsGo (rd : RefData) : List (List Char × List Char) → Option RefData
  | [] => some rd
  | (header, seq) :: rest =>
    match headToken header with
    | none => none
    | some seqid =>
      loadRefsGo
        { ref_seq_dict := dictInsert rd.ref_seq_dict seqid (seq.map Char.toUpper),
          ref_positions_count_dict :=
            dictInsert rd.ref_positions_count_dict seqid (List.replicate seq.length 0),
          total_ref_length := rd.total_ref_length + seq.length } rest

/-- The reference-loading phase of the main program. -/
def loadRefs (pairs : List (List Char × List Char)) : Option RefData :=
  loadRefsGo ⟨[], [], 0⟩ pairs

/-! ## Alignment Walker (source lines 97-150) -/

/-- One alignment line after field extraction (source lines 99-109).  The
passthrough fields `rnext`, `pnext`, `tlen` and `qual` are parsed by the
source but never consulted, so they are omitted here; `query_seq` is stored
raw and upper-cased at use, as in the source. -/
structure SamRecord where
  query_id : List Char
  flag : Int
  subject_id : List Char
  first_pos : Int
  mapping_qual : Int
  cigar : List Char
  query_seq : List Char
deriving DecidableEq

/-- Python string indexing `s[i]`: wraps a negative index by `len(s)`;
`IndexError` (hence `none`) outside `[-len(s), len(s))`. -/
def pyGet (s : List Char) (i : Int) : Option Char :=
  if 0 ≤ i then s.get? i.toNat
  else if 0 ≤ i + s.length then s.get? (i + (s.length : Int)).toNat
  else none

/-- The M-block comparison (source line 138):
`sum(query_seq[query_end+1+i] == subject_seq[subject_end+1+i] for i in xrange(0, count))`,
aborting (`none`) if any index is out of range. -/
def countMatches (q s : List Char) (qe se : Int) : Nat → Option Nat
  | 0 => some 0
  | n + 1 =>
    match pyGet q (qe + 1), pyGet s (se + 1), countMatches q s (qe + 1) (se + 1) n with
    | some qc, some sc, some rest => some ((if qc = sc then 1 else 0) + rest)
    | _, _, _ => none

/-- The per-record cursor/counter state of the CIGAR walk
(source lines 130-134). -/
structure WalkState where
  query_end : Int
  subject_end : Int
  indel_num : Nat
  matches_num : Nat
  mismatches_num : Nat
  overhang_num : Nat
deriving DecidableEq

/-- The CIGAR walk loop (source lines 135-150): `M` compares blocks and
advances both cursors, `I` advances the query cursor, `D` the subject cursor,
`S` only adds overhang, and any other operator does nothing. -/
def walkOps (query_seq subject_seq : List Char) :
    List (Char × Nat) → WalkState → Option WalkState
  | [], st => some st
  | (operation, count) :: rest, st =>
    if operation = 'M' then
      match countMatches query_seq subject_seq st.query_end st.subject_end count with
      | none => none
      | some local_matches =>
        walkOps query_seq subject_seq rest
          { st with
            matches_num := st.matches_num + local_matches,
            mismatches_num := st.mismatches_num + (count - local_matches),
            subject_end := st.subject_end + count,
            query_end := st.query_end + count }
    else if operation = 'I' then
      walkOps query_seq subject_seq rest
        { st with query_end := st.query_end + count, indel_num := st.indel_num + count }
    else if operation = 'D' then
      walkOps query_seq subject_seq rest
        { st with subject_end := st.subject_end + count, indel_num := st.indel_num + count }
    else if operation = 'S' then
      walkOps query_seq subject_seq rest { st with overhang_num := st.overhang_num + count }
    else
      walkOps query_seq subject_seq rest st

/-- Soft-clip extraction (source lines 121-127): `cigar_tab[0]` raises
`IndexError` on an empty operation list (`none`); a leading `S` of length `n`
yields `query_start = n`, an initial overhang of `n`, and is deleted; any
other leading operation leaves the list untouched with `query_start = 0`. -/
def softClipHead : List (Char × Nat) → Option (Nat × Nat × List (Char × Nat))
  | [] => none
  | (op, count) :: rest =>
    if op = 'S' then some (count, count, rest) else some (0, 0, (op, count) :: rest)

/-- The whole per-record walk (source lines 108-150 minus aggregation):
subject lookup (`KeyError` if absent), upper-casing of the query, CIGAR
parsing, soft-clip extraction, then the walk with both cursors initialized one
position before the alignment start.  Returns `(query_start, final walk
state)`. -/
def recordWalk (ref_seq_dict : List (List Char × List Char)) (r : SamRecord) :
    Option (Nat × WalkState) :=
  match dictGet? ref_seq_dict r.subject_id with
  | none => none
  | some subject_seq =>
    match softClipHead (parse_cigar r.cigar) with
    | none => none
    | some (query_start, overhang0, cigar_tab) =>
      (walkOps (r.query_seq.map Char.toUpper) subject_seq cigar_tab
        { query_end := (query_start : Int) - 1, subject_end := (r.first_pos - 1) - 1,
          indel_num := 0, matches_num := 0, mismatches_num := 0,
          overhang_num := overhang0 }).map (fun w => (query_start, w))

/-- Total length of the `M` operations of an operation list. -/
def mSum (ops : List (Char × Nat)) : Nat :=
  ((ops.filter (fun p => p.1 == 'M')).map Prod.snd).sum

/-- Total length of the `M` and `D` operations of an operation list: the
number of reference positions the walk consumes. -/
def mdSum (ops : List (Char × Nat)) : Nat :=
  ((ops.filter (fun p => p.1 == 'M' || p.1 == 'D')).map Prod.snd).sum

/-- The operation list after the soft-clip extraction, as a total function. -/
def dropLeadClip : List (Char × Nat) → List (Char × Nat)
  | [] => []
  | (op, count) :: rest => if op = 'S' then rest else (op, count) :: rest

/-- Reference span of a record: the number of reference positions covered by
its walk, `subject_end - subject_start + 1`, as a pure function of the
CIGAR. -/
def refSpan (r : SamRecord) : Nat :=
  mdSum (dropLeadClip (parse_cigar r.cigar))

lemma countMatches_le (q s : List Char) :
    ∀ (n : Nat) (qe se : Int) (m : Nat), countMatches q s qe se n = some m → m ≤ n := by
  intro n
  induction n with
  | zero =>
    intro qe se m h
    simp only [countMatches, Option.some_inj] at h
    omega
  | succ k ih =>
    intro qe se m h
    rcases hq : pyGet q (qe + 1) with _ | qc <;>
      rcases hs : pyGet s (se + 1) with _ | sc <;>
      rcases hr : countMatches q s (qe + 1) (se + 1) k with _ | rest <;>
      simp [countMatches, hq, hs, hr] at h
    have hrk := ih (qe + 1) (se + 1) rest hr
    by_cases hqc : qc = sc <;> simp only [hqc, if_true, if_false] at h <;> omega

lemma mSum_cons (op : Char) (c : Nat) (rest : List (Char × Nat)) :
    mSum ((op, c) :: rest) = (if op = 'M' then c else 0) + mSum rest := by
  by_cases h : op = 'M' <;> simp [mSum, List.filter_cons, h]

lemma mdSum_cons (op : Char) (c : Nat) (rest : List (Char × Nat)) :
    mdSum ((op, c) :: rest) = (if op = 'M' ∨ op = 'D' then c else 0) + mdSum rest := by
  by_cases h : op = 'M' ∨ op = 'D'
  · rcases h with h | h <;> simp [mdSum, List.filter_cons, h]
  · push_neg at h
    simp [mdSum, List.filter_cons, h.1, h.2, if_neg]

lemma walkOps_subject_end (q s : List Char) :
    ∀ (ops : List (Char × Nat)) (st st' : WalkState), walkOps q s ops st = some st' →
      st'.subject_end = st.subject_end + mdSum ops := by
  intro ops
  induction ops with
  | nil =>
    intro st st' h
    simp only [walkOps, Option.some_inj] at h
    simp [← h, mdSum]
  | cons p rest ih =>
    rcases p with ⟨op, count⟩
    intro st st' h
    by_cases hM : op = 'M'
    · subst hM
      rcases hcm : countMatches q s st.query_end st.subject_end count with _ | lm
      · simp [walkOps, hcm] at h
      · simp [walkOps, hcm] at h
        have hrec := ih _ _ h
        simp at hrec
        rw [mdSum_cons, if_pos (by decide), hrec]
        push_cast
        ring
    · by_cases hI : op = 'I'
      · subst hI
        simp [walkOps] at h
        have hrec := ih _ _ h
        simp at hrec
        rw [mdSum_cons, if_neg (by decide), hrec]
        norm_num
      · by_cases hD : op = 'D'
        · subst hD
          simp [walkOps] at h
          have hrec := ih _ _ h
          simp at hrec
          rw [mdSum_cons, if_pos (by decide), hrec]
          push_cast
          ring
        · by_cases hS : op = 'S'
          · subst hS
            simp [walkOps] at h
            have hrec := ih _ _ h
            simp at hrec
            rw [mdSum_cons, if_neg (by decide), hrec]
            norm_num
          · simp [walkOps, hM, hI, hD, hS] at h
            have hrec := ih _ _ h
            rw [mdSum_cons, if_neg (fun hc => hc.elim hM hD), hrec]
            norm_num

lemma walkOps_matches (q s : List Char) :
    ∀ (ops : List (Char × Nat)) (st st' : WalkState), walkOps q s ops st = some st' →
      st'.matches_num + st'.mismatches_num =
        st.matches_num + st.mismatches_num + mSum ops := by
  intro ops
  induction ops with
  | nil =>
    intro st st' h
    simp only [walkOps, Option.some_inj] at h
    simp [← h, mSum]
  | cons p rest ih =>
    rcases p with ⟨op, count⟩
    intro st st' h
    by_cases hM : op = 'M'
    · subst hM
      rcases hcm : countMatches q s st.query_end st.subject_end count with _ | lm
      · simp [walkOps, hcm] at h
      · simp [walkOps, hcm] at h
        have hle := countMatches_le q s count st.query_end st.subject_end lm hcm
        have hrec := ih _ _ h
        simp at hrec
        rw [mSum_cons, if_pos (by decide), hrec]
        omega
    · by_cases hI : op = 'I'
      · subst hI
        simp [walkOps] at h
        have hrec := ih _ _ h
        simp at hrec
        rw [mSum_cons, if_neg (by decide), hrec]
        omega
      · by_cases hD : op = 'D'
        · subst hD
          simp [walkOps] at h
          have hrec := ih _ _ h
          simp at hrec
          rw [mSum_cons, if_neg (by decide), hrec]
          omega
        · by_cases hS : op = 'S'
          · subst hS
            simp [walkOps] at h
            have hrec := ih _ _ h
            simp at hrec
            rw [mSum_cons, if_neg (by decide), hrec]
            omega
          · simp [walkOps, hM, hI, hD, hS] at h
            have hrec := ih _ _ h
            rw [mSum_cons, if_neg hM, hrec]
            omega

lemma softClipHead_shape :
    ∀ (ct : List (Char × Nat)) (qs oh : Nat) (rest : List (Char × Nat)),
      softClipHead ct = some (qs, oh, rest) → qs = oh ∧ rest = dropLeadClip ct := by
  intro ct qs oh rest h
  rcases ct with _ | ⟨⟨op, count⟩, tl⟩
  · exact absurd h (by simp [softClipHead])
  · by_cases hS : op = 'S'
    · subst hS
      simp [softClipHead] at h
      obtain ⟨h1, h2, h3⟩ := h
      subst h1
      subst h2
      subst h3
      exact ⟨rfl, by simp [dropLeadClip]⟩
    · simp [softClipHead, hS] at h
      obtain ⟨h1, h2, h3⟩ := h
      subst h1
      subst h2
      subst h3
      exact ⟨rfl, by simp [dropLeadClip, hS]⟩

/-- C6: every `M` operation of length `n` advances both the query and subject
cursors by `n` and contributes exactly `n` to `matches + mismatches` (each
compared pair is counted as a match or a mismatch); consequently, for every
record whose walk succeeds, `matches_num + mismatches_num` equals the total
length of the `M` operations of its CIGAR after soft-clip extraction. -/
theorem c6_match_block_counts :
    (∀ (q s : List Char) (n : Nat) (st st' : WalkState),
      walkOps q s [('M', n)] st = some st' →
        st'.matches_num + st'.mismatches_num = st.matches_num + st.mismatches_num + n ∧
        st'.query_end = st.query_end + n ∧
        st'.subject_end = st.subject_end + n) ∧
    (∀ (d : List (List Char × List Char)) (r : SamRecord) (p : Nat × WalkState),
      recordWalk d r = some p →
        p.2.matches_num + p.2.mismatches_num = mSum (dropLeadClip (parse_cigar r.cigar))) := by
  constructor
  · intro q s n st st' h
    rcases hcm : countMatches q s st.query_end st.subject_end n with _ | lm
    · simp [walkOps, hcm] at h
    · simp [walkOps, hcm] at h
      have hle := countMatches_le q s n st.query_end st.subject_end lm hcm
      subst h
      refine ⟨by simp; omega, by simp, by simp⟩
  · intro d r p h
    rcases hd : dictGet? d r.subject_id with _ | ssq
    · simp [recordWalk, hd] at h
    · rcases hsc : softClipHead (parse_cigar r.cigar) with _ | ⟨qs, oh, tab⟩
      · simp [recordWalk, hd, hsc] at h
      · simp [recordWalk, hd, hsc, Option.map_eq_some'] at h
        obtain ⟨w, hw, hpw⟩ := h
        have hm := walkOps_matches _ ssq tab _ w hw
        have hshape := softClipHead_shape _ qs oh tab hsc
        rw [← hshape.2]
        subst hpw
        simpa using hm

/-- C6 witness: a concrete `2M` walk over query `"AC"` and reference `"AG"`
(one match, one mismatch). -/
theorem c6_witness :
    ((⟨1, 1, 0, 1, 1, 0⟩ : WalkState).matches_num +
        (⟨1, 1, 0, 1, 1, 0⟩ : WalkState).mismatches_num =
      (⟨-1, -1, 0, 0, 0, 0⟩ : WalkState).matches_num +
        (⟨-1, -1, 0, 0, 0, 0⟩ : WalkState).mismatches_num + 2) ∧
    ((0, (⟨1, 1, 0, 1, 1, 0⟩ : WalkState)) : Nat × WalkState).2.matches_num +
        ((0, (⟨1, 1, 0, 1, 1, 0⟩ : WalkState)) : Nat × WalkState).2.mismatches_num =
      mSum (dropLeadClip
        (parse_cigar
          (SamRecord.cigar ⟨['q'], 0, ['R'], 1, 255, ['2', 'M'], ['A', 'C']⟩))) := by
  constructor
  · exact (c6_match_block_counts.1 ['A', 'C'] ['A', 'G'] 2 ⟨-1, -1, 0, 0, 0, 0⟩
      ⟨1, 1, 0, 1, 1, 0⟩ (by decide)).1
  · exact c6_match_block_counts.2 [(['R'], ['A', 'G'])]
      ⟨['q'], 0, ['R'], 1, 255, ['2', 'M'], ['A', 'C']⟩ (0, ⟨1, 1, 0, 1, 1, 0⟩) (by decide)

/-- C7: a leading soft clip of length `n` sets `query_start = n`, contributes
`n` to the overhang, and is removed from further processing; any other leading
operation leaves `query_start = 0`; a non-leading `S` operation only adds its
length to the overhang, advancing neither cursor. -/
theorem c7_soft_clip_handling :
    (∀ (n : Nat) (rest : List (Char × Nat)),
      softClipHead (('S', n) :: rest) = some (n, n, rest)) ∧
    (∀ (op : Char) (n : Nat) (rest : List (Char × Nat)), op ≠ 'S' →
      softClipHead ((op, n) :: rest) = some (0, 0, (op, n) :: rest)) ∧
    (∀ (q s : List Char) (n : Nat) (ops : List (Char × Nat)) (st : WalkState),
      walkOps q s (('S', n) :: ops) st =
        walkOps q s ops
          { st with overhang_num := st.overhang_num + n }) ∧
    (∀ (d : List (List Char × List Char)) (r : SamRecord) (n : Nat)
        (rest : List (Char × Nat)) (p : Nat × WalkState),
      parse_cigar r.cigar = ('S', n) :: rest → recordWalk d r = some p → p.1 = n) ∧
    (∀ (d : List (List Char × List Char)) (r : SamRecord) (op : Char) (n : Nat)
        (rest : List (Char × Nat)) (p : Nat × WalkState),
      parse_cigar r.cigar = (op, n) :: rest → op ≠ 'S' → recordWalk d r = some p →
        p.1 = 0) := by
  refine ⟨?_, ?_, ?_, ?_, ?_⟩
  · intro n rest
    simp [softClipHead]
  · intro op n rest h
    simp [softClipHead, h]
  · intro q s n ops st
    simp [walkOps]
  · intro d r n rest p hparse h
    rcases hd : dictGet? d r.subject_id with _ | ssq
    · simp [recordWalk, hd] at h
    · simp [recordWalk, hd, hparse, softClipHead, Option.map_eq_some'] at h
      obtain ⟨w, hw, hpw⟩ := h
      subst hpw
      rfl
  · intro d r op n rest p hparse hop h
    rcases hd : dictGet? d r.subject_id with _ | ssq
    · simp [recordWalk, hd] at h
    · simp [recordWalk, hd, hparse, softClipHead, hop, Option.map_eq_some'] at h
      obtain ⟨w, hw, hpw⟩ := h
      subst hpw
      rfl

/-- C7 witness: all five parts at concrete inputs (`3S2M` leading clip,
`2M` non-clip head, a lone non-leading `S`, and two concrete records). -/
theorem c7_witness :
    softClipHead (('S', 3) :: [('M', 2)]) = some (3, 3, [('M', 2)]) ∧
    softClipHead (('M', 2) :: []) = some (0, 0, [('M', 2)]) ∧
    walkOps ['A'] ['A'] (('S', 4) :: []) ⟨0, 0, 0, 0, 0, 0⟩ =
      walkOps ['A'] ['A'] []
        { (⟨0, 0, 0, 0, 0, 0⟩ : WalkState) with overhang_num := 0 + 4 } ∧
    ((3, (⟨4, 1, 0, 2, 0, 3⟩ : WalkState)) : Nat × WalkState).1 = 3 ∧
    ((0, (⟨1, 1, 0, 2, 0, 0⟩ : WalkState)) : Nat × WalkState).1 = 0 := by
  refine ⟨?_, ?_, ?_, ?_, ?_⟩
  · exact c7_soft_clip_handling.1 3 [('M', 2)]
  · exact c7_soft_clip_handling.2.1 'M' 2 [] (by decide)
  · exact c7_soft_clip_handling.2.2.1 ['A'] ['A'] 4 [] ⟨0, 0, 0, 0, 0, 0⟩
  · exact c7_soft_clip_handling.2.2.2.1 [(['R'], ['A', 'A'])]
      ⟨['q'], 0, ['R'], 1, 255, ['3', 'S', '2', 'M'], ['G', 'G', 'G', 'A', 'A']⟩
      3 [('M', 2)] (3, ⟨4, 1, 0, 2, 0, 3⟩) (by decide) (by decide)
  · exact c7_soft_clip_handling.2.2.2.2 [(['R'], ['A', 'A'])]
      ⟨['q'], 0, ['R'], 1, 255, ['2', 'M'], ['A', 'A']⟩
      'M' 2 [] (0, ⟨1, 1, 0, 2, 0, 0⟩) (by decide) (by decide) (by decide)

/-! ## Coverage update and the main aggregation pass (source lines 87-167) -/

/-- Python `l[i] += 1` on a list of counters (source line 164): reads and
writes index `i`, wrapping a negative index by `len(l)`; `IndexError`
(hence `none`) outside `[-len(l), len(l))`. -/
def pyIncAt (l : List Nat) (i : Int) : Option (List Nat) :=
  if 0 ≤ i then
    if i < l.length then some (l.set i.toNat (l.getD i.toNat 0 + 1)) else none
  else
    if 0 ≤ i + l.length then
      some (l.set (i + l.length).toNat (l.getD (i + l.length).toNat 0 + 1))
    else none

/-- `n` successive increments starting at index `i`: the body of the
`for i in xrange(subject_start, subject_end + 1)` loop (source lines
163-164). -/
def covIncRange (l : List Nat) (i : Int) : Nat → Option (List Nat)
  | 0 => some l
  | n + 1 =>
    match pyIncAt l i with
    | none => none
    | some l2 => covIncRange l2 (i + 1) n

/-- The whole coverage loop: one increment per index of
`xrange(subject_start, subject_end + 1)`. -/
def covInc (l : List Nat) (subject_start subject_end : Int) : Option (List Nat) :=
  covIncRange l subject_start (subject_end + 1 - subject_start).toNat

/-- The six running totals plus `previous_query_id`
(source lines 88-94). -/
structure Agg where
  previous_query_id : List Char
  total_aligned_contigs_num : Nat
  total_aligned_contigs_length : Nat
  total_matches_num : Nat
  total_mismatches_num : Nat
  total_indel_num : Nat
  total_overhang_num : Nat
deriving DecidableEq

/-- Initial accumulator values (source lines 88-94). -/
def initAgg : Agg := ⟨[], 0, 0, 0, 0, 0, 0⟩

/-- Mutable state of the single pass over the alignment stream: the
accumulator plus `ref_positions_count_dict`. -/
structure PassState where
  agg : Agg
  cov : List (List Char × List Nat)
deriving DecidableEq

/-- The "Store metrics" step (source lines 153-159) followed by the
`previous_query_id` update (line 167): the six totals absorb the record's
contributions if and only if its query id differs from the previous
record's. -/
def aggUpdate (agg : Agg) (r : SamRecord) (w : WalkState) : Agg :=
  let agg2 :=
    if r.query_id ≠ agg.previous_query_id then
      { agg with
        total_aligned_contigs_num := agg.total_aligned_contigs_num + 1,
        total_aligned_contigs_length :=
          agg.total_aligned_contigs_length + r.query_seq.length,
        total_matches_num := agg.total_matches_num + w.matches_num,
        total_mismatches_num := agg.total_mismatches_num + w.mismatches_num,
        total_indel_num := agg.total_indel_num + w.indel_num,
        total_overhang_num := agg.total_overhang_num + w.overhang_num }
    else agg
  { agg2 with previous_query_id := r.query_id }

/-- One iteration of the main loop (source lines 97-167): the per-record
walk, the conditional totals update, the coverage increments over the
inclusive range `[subject_start, subject_end]` of the matched reference's
array, and the `previous_query_id` update.  `none` models the run aborting
with `KeyError` or `IndexError`. -/
def stepRecord (ref_seq_dict : List (List Char × List Char)) (st : PassState)
    (r : SamRecord) : Option PassState :=
  match recordWalk ref_seq_dict r with
  | none => none
  | some (_, w) =>
    match dictGet? st.cov r.subject_id with
    | none => none
    | some arr =>
      match covInc arr (r.first_pos - 1) w.subject_end with
      | none => none
      | some arr2 =>
        some ⟨aggUpdate st.agg r w, dictInsert st.cov r.subject_id arr2⟩

/-- The whole single pass over the alignment stream. -/
def processRecords (ref_seq_dict : List (List Char × List Char)) (st : PassState) :
    List SamRecord → Option PassState
  | [] => some st
  | r :: rs =>
    match stepRecord ref_seq_dict st r with
    | none => none
    | some st2 => processRecords ref_seq_dict st2 rs

/-- Final error-rate computation (source lines 170-171), over `ℚ`:
`none` models the uncaught `ZeroDivisionError` raised when
`total_aligned_contigs_length == 0`. -/
def errors_num_per_kbp (agg : Agg) : Option ℚ :=
  let total_leven_distance : Nat :=
    agg.total_mismatches_num + agg.total_indel_num + agg.total_overhang_num
  if agg.total_aligned_contigs_length = 0 then none
  else
    some ((total_leven_distance : ℚ) * 1000 / (agg.total_aligned_contigs_length : ℚ))

/-- Bucket one position's depth (source lines 181-184): depth at least 10
falls into bucket 10, otherwise into the bucket equal to the depth. -/
def bucketize (buckets : List Nat) (pos_coverage : Nat) : List Nat :=
  if 10 ≤ pos_coverage then buckets.set 10 (buckets.getD 10 0 + 1)
  else buckets.set pos_coverage (buckets.getD pos_coverage 0 + 1)

/-- The 11-bucket coverage histogram summed over every reference of the
catalog (source lines 174-184).  `for ref_id in ref_seq_dict` iterates the
catalog keys and reads `ref_positions_count_dict[ref_id]`; both dictionaries
are only ever written together with the same keys, so iterating the coverage
dictionary directly visits the same arrays (a Python-2 dict's iteration order
is arbitrary, and the bucket counts are order-independent). -/
def coverage_count_list (cov : List (List Char × List Nat)) : List Nat :=
  cov.foldl (fun bs p => p.2.foldl bucketize bs) (List.replicate 11 0)

/-- The key-and-length skeleton of the coverage dictionary: the pass mutates
counter values but never keys or array lengths. -/
def covShape (cov : List (List Char × List Nat)) : List (List Char × Nat) :=
  cov.map (fun p => (p.1, p.2.length))

lemma getD_set_self (l : List Nat) (k v : Nat) :
    ∀ (hk : k < l.length), (l.set k v).getD k 0 = v := by
  induction l generalizing k with
  | nil => intro hk; simp at hk
  | cons a tl ih =>
    intro hk
    cases k with
    | zero => simp
    | succ m => simpa using ih m (by simpa using hk)

lemma getD_set_ne (l : List Nat) (k j v : Nat) (h : j ≠ k) :
    (l.set k v).getD j 0 = l.getD j 0 := by
  induction l generalizing k j with
  | nil => simp
  | cons a tl ih =>
    cases k with
    | zero =>
      cases j with
      | zero => exact absurd rfl h
      | succ m => simp
    | succ m =>
      cases j with
      | zero => simp
      | succ n => simpa using ih m n (fun hc => h (by rw [hc]))

lemma sum_set_incr (l : List Nat) :
    ∀ (k : Nat), k < l.length → (l.set k (l.getD k 0 + 1)).sum = l.sum + 1 := by
  induction l with
  | nil => intro k hk; simp at hk
  | cons a tl ih =>
    intro k hk
    cases k with
    | zero => simp [Nat.add_assoc, Nat.add_comm, Nat.add_left_comm]
    | succ m =>
      have hih := ih m (by simpa using hk)
      simp only [List.getD_cons_succ]
      have hset : (a :: tl).set (m + 1) (tl.getD m 0 + 1) = a :: tl.set m (tl.getD m 0 + 1) :=
        rfl
      rw [hset, List.sum_cons, List.sum_cons, hih]
      omega

lemma pyIncAt_elim (l : List Nat) (i : Int) (l2 : List Nat)
    (h : pyIncAt l i = some l2) :
    ∃ k : Nat, k < l.length ∧ l2 = l.set k (l.getD k 0 + 1) := by
  by_cases h0 : 0 ≤ i
  · by_cases hlt : i < l.length
    · refine ⟨i.toNat, by omega, ?_⟩
      simp only [pyIncAt, if_pos h0, if_pos hlt, Option.some_inj] at h
      exact h.symm
    · simp [pyIncAt, h0, hlt] at h
  · by_cases hge : 0 ≤ i + l.length
    · refine ⟨(i + l.length).toNat, by omega, ?_⟩
      simp only [pyIncAt, if_neg h0, if_pos hge, Option.some_inj] at h
      exact h.symm
    · simp [pyIncAt, h0, hge] at h

/-- The six running totals as a tuple, without `previous_query_id`. -/
structure Totals where
  num : Nat
  len : Nat
  matches_num : Nat
  mismatches_num : Nat
  indel_num : Nat
  overhang_num : Nat
deriving DecidableEq

def zeroTotals : Totals := ⟨0, 0, 0, 0, 0, 0⟩

def addTotals (a b : Totals) : Totals :=
  ⟨a.num + b.num, a.len + b.len, a.matches_num + b.matches_num,
    a.mismatches_num + b.mismatches_num, a.indel_num + b.indel_num,
    a.overhang_num + b.overhang_num⟩

def aggTotals (a : Agg) : Totals :=
  ⟨a.total_aligned_contigs_num, a.total_aligned_contigs_length, a.total_matches_num,
    a.total_mismatches_num, a.total_indel_num, a.total_overhang_num⟩

/-- The contribution one record makes to the six totals when it is the
representative of its query group. -/
def recTotals (d : List (List Char × List Char)) (r : SamRecord) : Option Totals :=
  (recordWalk d r).map fun p =>
    ⟨1, r.query_seq.length, p.2.matches_num, p.2.mismatches_num,
      p.2.indel_num, p.2.overhang_num⟩

/-- Sum of the per-record contributions of a list of records. -/
def sumTotals (d : List (List Char × List Char)) : List SamRecord → Option Totals
  | [] => some zeroTotals
  | r :: rs =>
    match recTotals d r, sumTotals d rs with
    | some t, some ts => some (addTotals t ts)
    | _, _ => none

lemma addTotals_zero_right (t : Totals) : addTotals t zeroTotals = t := by
  cases t
  simp [addTotals, zeroTotals]

lemma addTotals_assoc (a b c : Totals) :
    addTotals (addTotals a b) c = addTotals a (addTotals b c) := by
  cases a
  cases b
  cases c
  simp [addTotals, Nat.add_assoc]

lemma aggUpdate_prev (agg : Agg) (r : SamRecord) (w : WalkState) :
    (aggUpdate agg r w).previous_query_id = r.query_id := by
  simp [aggUpdate]

lemma aggUpdate_same (agg : Agg) (r : SamRecord) (w : WalkState)
    (h : r.query_id = agg.previous_query_id) : aggUpdate agg r w = agg := by
  cases agg
  simp_all [aggUpdate]

lemma aggUpdate_totals_new (agg : Agg) (r : SamRecord) (w : WalkState)
    (h : r.query_id ≠ agg.previous_query_id) :
    aggTotals (aggUpdate agg r w) =
      addTotals (aggTotals agg)
        ⟨1, r.query_seq.length, w.matches_num, w.mismatches_num,
          w.indel_num, w.overhang_num⟩ := by
  cases agg
  simp_all [aggUpdate, aggTotals, addTotals]

lemma pyIncAt_nonneg_elim (l : List Nat) (i : Int) (l2 : List Nat) (h0 : 0 ≤ i)
    (h : pyIncAt l i = some l2) :
    i < l.length ∧ l2 = l.set i.toNat (l.getD i.toNat 0 + 1) := by
  by_cases hlt : i < l.length
  · simp only [pyIncAt, if_pos h0, if_pos hlt, Option.some_inj] at h
    exact ⟨hlt, h.symm⟩
  · simp [pyIncAt, h0, hlt] at h

lemma pyIncAt_length (l : List Nat) (i : Int) (l2 : List Nat)
    (h : pyIncAt l i = some l2) : l2.length = l.length := by
  obtain ⟨k, hk, h2⟩ := pyIncAt_elim l i l2 h
  rw [h2, List.length_set]

lemma pyIncAt_sum (l : List Nat) (i : Int) (l2 : List Nat)
    (h : pyIncAt l i = some l2) : l2.sum = l.sum + 1 := by
  obtain ⟨k, hk, h2⟩ := pyIncAt_elim l i l2 h
  rw [h2]
  exact sum_set_incr l k hk

lemma pyIncAt_isSome_congr (l1 l2 : List Nat) (i : Int) (h : l1.length = l2.length) :
    (pyIncAt l1 i).isSome = (pyIncAt l2 i).isSome := by
  simp only [pyIncAt, h]
  split_ifs <;> simp

lemma covIncRange_length :
    ∀ (n : Nat) (l : List Nat) (i : Int) (l2 : List Nat),
      covIncRange l i n = some l2 → l2.length = l.length := by
  intro n
  induction n with
  | zero =>
    intro l i l2 h
    simp only [covIncRange, Option.some_inj] at h
    rw [← h]
  | succ k ih =>
    intro l i l2 h
    rcases hp : pyIncAt l i with _ | m
    · simp [covIncRange, hp] at h
    · simp only [covIncRange, hp] at h
      rw [ih m (i + 1) l2 h, pyIncAt_length l i m hp]

lemma covIncRange_sum :
    ∀ (n : Nat) (l : List Nat) (i : Int) (l2 : List Nat),
      covIncRange l i n = some l2 → l2.sum = l.sum + n := by
  intro n
  induction n with
  | zero =>
    intro l i l2 h
    simp only [covIncRange, Option.some_inj] at h
    rw [← h]
    omega
  | succ k ih =>
    intro l i l2 h
    rcases hp : pyIncAt l i with _ | m
    · simp [covIncRange, hp] at h
    · simp only [covIncRange, hp] at h
      have h1 := pyIncAt_sum l i m hp
      have h2 := ih m (i + 1) l2 h
      omega

lemma covIncRange_isSome_congr :
    ∀ (n : Nat) (l1 l2 : List Nat) (i : Int), l1.length = l2.length →
      (covIncRange l1 i n).isSome = (covIncRange l2 i n).isSome := by
  intro n
  induction n with
  | zero => intro l1 l2 i _; simp [covIncRange]
  | succ k ih =>
    intro l1 l2 i hlen
    have hps := pyIncAt_isSome_congr l1 l2 i hlen
    rcases hp1 : pyIncAt l1 i with _ | m1 <;> rcases hp2 : pyIncAt l2 i with _ | m2 <;>
      rw [hp1, hp2] at hps <;> simp at hps
    · simp [covIncRange, hp1, hp2]
    · simp only [covIncRange, hp1, hp2]
      exact ih m1 m2 (i + 1)
        (by rw [pyIncAt_length l1 i m1 hp1, pyIncAt_length l2 i m2 hp2, hlen])

lemma covIncRange_bound :
    ∀ (n : Nat) (l : List Nat) (i : Int) (l2 : List Nat), 0 ≤ i → n ≠ 0 →
      covIncRange l i n = some l2 → i + n ≤ l.length := by
  intro n
  induction n with
  | zero => intro l i l2 _ hn _; exact absurd rfl hn
  | succ k ih =>
    intro l i l2 h0 _ h
    rcases hp : pyIncAt l i with _ | m
    · simp [covIncRange, hp] at h
    · obtain ⟨hi, hm⟩ := pyIncAt_nonneg_elim l i m h0 hp
      simp only [covIncRange, hp] at h
      by_cases hk : k = 0
      · subst hk
        push_cast
        omega
      · have hrec := ih m (i + 1) l2 (by omega) hk h
        have hlm : m.length = l.length := by rw [hm, List.length_set]
        rw [hlm] at hrec
        push_cast at hrec ⊢
        omega

lemma covIncRange_getD :
    ∀ (n : Nat) (l : List Nat) (i : Int) (l2 : List Nat), 0 ≤ i →
      covIncRange l i n = some l2 → ∀ j : Nat, j < l.length →
        l2.getD j 0 = l.getD j 0 + (if i ≤ (j : Int) ∧ (j : Int) < i + n then 1 else 0) := by
  intro n
  induction n with
  | zero =>
    intro l i l2 _ h j _
    simp only [covIncRange, Option.some_inj] at h
    rw [← h, if_neg (by omega)]
    omega
  | succ k ih =>
    intro l i l2 h0 h j hj
    rcases hp : pyIncAt l i with _ | m
    · simp [covIncRange, hp] at h
    · simp only [covIncRange, hp] at h
      obtain ⟨hi, hm⟩ := pyIncAt_nonneg_elim l i m h0 hp
      have hlm : m.length = l.length := by rw [hm, List.length_set]
      have hrec := ih m (i + 1) l2 (by omega) h j (by rw [hlm]; exact hj)
      rw [hrec, hm]
      by_cases hji : j = i.toNat
      · subst hji
        rw [getD_set_self l _ _ (by omega), if_neg (by omega), if_pos (by omega)]
      · rw [getD_set_ne l i.toNat j _ hji]
        by_cases hc : i ≤ (j : Int) ∧ (j : Int) < i + (k + 1 : Nat)
        · rw [if_pos hc, if_pos (by omega)]
        · rw [if_neg hc, if_neg (by omega)]

lemma covInc_sum (l : List Nat) (ss se : Int) (l2 : List Nat)
    (h : covInc l ss se = some l2) : l2.sum = l.sum + (se + 1 - ss).toNat :=
  covIncRange_sum _ l ss l2 h

lemma covInc_length (l : List Nat) (ss se : Int) (l2 : List Nat)
    (h : covInc l ss se = some l2) : l2.length = l.length :=
  covIncRange_length _ l ss l2 h

lemma covInc_isSome_congr (l1 l2 : List Nat) (ss se : Int)
    (h : l1.length = l2.length) :
    (covInc l1 ss se).isSome = (covInc l2 ss se).isSome :=
  covIncRange_isSome_congr _ l1 l2 ss h

lemma dictGet?_insert_self {α : Type} (d : List (List Char × α)) (k : List Char) (v : α) :
    dictGet? (dictInsert d k v) k = some v := by
  induction d with
  | nil => simp [dictInsert, dictGet?]
  | cons p rest ih =>
    by_cases hp : p.1 = k
    · simp [dictInsert, hp, dictGet?]
    · simp [dictInsert, hp, dictGet?, ih]

lemma dictGet?_insert_ne {α : Type} (d : List (List Char × α)) (k : List Char) (v : α)
    (k2 : List Char) (h : k2 ≠ k) :
    dictGet? (dictInsert d k v) k2 = dictGet? d k2 := by
  induction d with
  | nil => simp [dictInsert, dictGet?, Ne.symm h]
  | cons p rest ih =>
    by_cases hp : p.1 = k
    · have hpk2 : p.1 ≠ k2 := by rw [hp]; exact Ne.symm h
      have hins : dictInsert (p :: rest) k v = (k, v) :: rest := by simp [dictInsert, hp]
      rw [hins]
      simp [dictGet?, Ne.symm h, hpk2]
    · have hins : dictInsert (p :: rest) k v = p :: dictInsert rest k v := by
        simp [dictInsert, hp]
      rw [hins]
      by_cases hpk2 : p.1 = k2 <;> simp [dictGet?, hpk2, ih]

lemma dictGet?_covShape (cov : List (List Char × List Nat)) (k : List Char) :
    dictGet? (covShape cov) k = (dictGet? cov k).map List.length := by
  induction cov with
  | nil => simp [covShape, dictGet?]
  | cons p rest ih =>
    have hcons : covShape (p :: rest) = (p.1, p.2.length) :: covShape rest := rfl
    rw [hcons]
    by_cases hp : p.1 = k <;> simp [dictGet?, hp, ih]

lemma covShape_insert :
    ∀ (cov : List (List Char × List Nat)) (k : List Char) (arr2 arr : List Nat),
      dictGet? cov k = some arr → arr2.length = arr.length →
      covShape (dictInsert cov k arr2) = covShape cov := by
  intro cov
  induction cov with
  | nil => intro k arr2 arr hget _; simp [dictGet?] at hget
  | cons p rest ih =>
    intro k arr2 arr hget hlen
    have hcons : ∀ (q : List Char × List Nat) (t : List (List Char × List Nat)),
        covShape (q :: t) = (q.1, q.2.length) :: covShape t := fun q t => rfl
    by_cases hp : p.1 = k
    · have hget2 : p.2 = arr := by simp [dictGet?, hp] at hget; exact hget
      have hins : dictInsert (p :: rest) k arr2 = (k, arr2) :: rest := by
        simp [dictInsert, hp]
      rw [hins, hcons, hcons, hp, hget2, hlen]
    · have hget2 : dictGet? rest k = some arr := by
        simp [dictGet?, hp] at hget; exact hget
      have hins : dictInsert (p :: rest) k arr2 = p :: dictInsert rest k arr2 := by
        simp [dictInsert, hp]
      rw [hins, hcons, hcons, ih k arr2 arr hget2 hlen]

lemma stepRecord_elim (d : List (List Char × List Char)) (st : PassState)
    (r : SamRecord) (st2 : PassState) (h : stepRecord d st r = some st2) :
    ∃ qs w arr arr2, recordWalk d r = some (qs, w) ∧
      dictGet? st.cov r.subject_id = some arr ∧
      covInc arr (r.first_pos - 1) w.subject_end = some arr2 ∧
      st2 = ⟨aggUpdate st.agg r w, dictInsert st.cov r.subject_id arr2⟩ := by
  rcases hrw : recordWalk d r with _ | p
  · simp [stepRecord, hrw] at h
  · rcases p with ⟨qs, w⟩
    rcases hget : dictGet? st.cov r.subject_id with _ | arr
    · simp [stepRecord, hrw, hget] at h
    · rcases hci : covInc arr (r.first_pos - 1) w.subject_end with _ | arr2
      · simp [stepRecord, hrw, hget, hci] at h
      · simp only [stepRecord, hrw, hget, hci, Option.some_inj] at h
        exact ⟨qs, w, arr, arr2, rfl, rfl, hci, h.symm⟩

lemma recordWalk_subject_end (d : List (List Char × List Char)) (r : SamRecord)
    (qs : Nat) (w : WalkState) (h : recordWalk d r = some (qs, w)) :
    w.subject_end = (r.first_pos - 1) - 1 + refSpan r := by
  rcases hd : dictGet? d r.subject_id with _ | ssq
  · simp [recordWalk, hd] at h
  · rcases hsc : softClipHead (parse_cigar r.cigar) with _ | ⟨qs2, oh, tab⟩
    · simp [recordWalk, hd, hsc] at h
    · simp only [recordWalk, hd, hsc, Option.map_eq_some'] at h
      obtain ⟨w2, hw, hww⟩ := h
      have hw2 : w2 = w := congrArg Prod.snd hww
      have hse := walkOps_subject_end _ ssq tab _ w2 hw
      have hshape := softClipHead_shape _ qs2 oh tab hsc
      rw [refSpan, ← hshape.2, ← hw2]
      simpa using hse

lemma stepRecord_shape (d : List (List Char × List Char)) (st : PassState)
    (r : SamRecord) (st2 : PassState) (h : stepRecord d st r = some st2) :
    covShape st2.cov = covShape st.cov := by
  obtain ⟨qs, w, arr, arr2, hrw, hget, hci, hst⟩ := stepRecord_elim d st r st2 h
  rw [hst]
  exact covShape_insert st.cov r.subject_id arr2 arr hget
    (covInc_length arr _ _ arr2 hci)

lemma processRecords_shape (d : List (List Char × List Char)) :
    ∀ (rs : List SamRecord) (st st2 : PassState),
      processRecords d st rs = some st2 → covShape st2.cov = covShape st.cov := by
  intro rs
  induction rs with
  | nil =>
    intro st st2 h
    simp only [processRecords, Option.some_inj] at h
    rw [← h]
  | cons r rest ih =>
    intro st st2 h
    rcases h1 : stepRecord d st r with _ | o
    · simp [processRecords, h1] at h
    · simp only [processRecords, h1] at h
      rw [ih o st2 h, stepRecord_shape d st r o h1]

lemma stepRecord_isSome_congr (d : List (List Char × List Char)) (r : SamRecord)
    (st1 st2 : PassState) (hsh : covShape st1.cov = covShape st2.cov) :
    (stepRecord d st1 r).isSome = (stepRecord d st2 r).isSome := by
  have hlen : (dictGet? st1.cov r.subject_id).map List.length =
      (dictGet? st2.cov r.subject_id).map List.length := by
    rw [← dictGet?_covShape, ← dictGet?_covShape, hsh]
  rcases hrw : recordWalk d r with _ | p
  · simp [stepRecord, hrw]
  · rcases p with ⟨qs, w⟩
    rcases h1 : dictGet? st1.cov r.subject_id with _ | arr1 <;>
      rcases h2 : dictGet? st2.cov r.subject_id with _ | arr2 <;>
      rw [h1, h2] at hlen <;> simp at hlen
    · simp [stepRecord, hrw, h1, h2]
    · have hceq := covInc_isSome_congr arr1 arr2 (r.first_pos - 1) w.subject_end hlen
      rcases hc1 : covInc arr1 (r.first_pos - 1) w.subject_end with _ | a1 <;>
        rcases hc2 : covInc arr2 (r.first_pos - 1) w.subject_end with _ | a2 <;>
        rw [hc1, hc2] at hceq <;> simp at hceq
      · simp [stepRecord, hrw, h1, h2, hc1, hc2]
      · simp [stepRecord, hrw, h1, h2, hc1, hc2]

lemma processRecords_agg_congr (d : List (List Char × List Char)) :
    ∀ (rs : List SamRecord) (st1 st2 : PassState),
      st1.agg = st2.agg → covShape st1.cov = covShape st2.cov →
      Option.map PassState.agg (processRecords d st1 rs) =
        Option.map PassState.agg (processRecords d st2 rs) := by
  intro rs
  induction rs with
  | nil => intro st1 st2 ha _; simp [processRecords, ha]
  | cons r rest ih =>
    intro st1 st2 ha hsh
    have hiso := stepRecord_isSome_congr d r st1 st2 hsh
    rcases h1 : stepRecord d st1 r with _ | o1 <;>
      rcases h2 : stepRecord d st2 r with _ | o2 <;>
      rw [h1, h2] at hiso <;> simp at hiso
    · simp [processRecords, h1, h2]
    · obtain ⟨qs1, w1, arr1, a1, hrw1, hg1, hc1, ho1⟩ := stepRecord_elim d st1 r o1 h1
      obtain ⟨qs2, w2, arr2, a2, hrw2, hg2, hc2, ho2⟩ := stepRecord_elim d st2 r o2 h2
      rw [hrw1, Option.some_inj] at hrw2
      have hw : w1 = w2 := congrArg Prod.snd hrw2
      have hagg : o1.agg = o2.agg := by rw [ho1, ho2, ha, hw]
      have hshape : covShape o1.cov = covShape o2.cov := by
        rw [stepRecord_shape d st1 r o1 h1, stepRecord_shape d st2 r o2 h2]
        exact hsh
      simp only [processRecords, h1, h2]
      exact ih o1 o2 hagg hshape

lemma processRecords_same_qid (d : List (List Char × List Char)) :
    ∀ (t : List SamRecord) (st st2 : PassState),
      (∀ r ∈ t, r.query_id = st.agg.previous_query_id) →
      processRecords d st t = some st2 → st2.agg = st.agg := by
  intro t
  induction t with
  | nil =>
    intro st st2 _ h
    simp only [processRecords, Option.some_inj] at h
    rw [← h]
  | cons r rest ih =>
    intro st st2 hq h
    rcases h1 : stepRecord d st r with _ | o
    · simp [processRecords, h1] at h
    · simp only [processRecords, h1] at h
      obtain ⟨qs, w, arr, a2, hrw, hget, hci, ho⟩ := stepRecord_elim d st r o h1
      have hqr : r.query_id = st.agg.previous_query_id := hq r (List.mem_cons_self r rest)
      have hagg : o.agg = st.agg := by rw [ho]; exact aggUpdate_same st.agg r w hqr
      rw [← hagg]
      exact ih o st2
        (fun r2 hr2 => by rw [hagg]; exact hq r2 (List.mem_cons_of_mem r hr2)) h

lemma processRecords_append (d : List (List Char × List Char)) :
    ∀ (xs ys : List SamRecord) (st : PassState),
      processRecords d st (xs ++ ys) =
        (processRecords d st xs).bind (fun s2 => processRecords d s2 ys) := by
  intro xs
  induction xs with
  | nil => intro ys st; simp [processRecords]
  | cons r rest ih =>
    intro ys st
    rcases h1 : stepRecord d st r with _ | o <;>
      simp only [List.cons_append, processRecords, h1]
    · simp
    · exact ih ys o

/-- A canonical coverage dictionary with a given shape (used to express that
whether the pass aborts depends only on the key/length skeleton, never on the
accumulated counter values). -/
def shapeCov (shape : List (List Char × Nat)) : List (List Char × List Nat) :=
  shape.map (fun p => (p.1, List.replicate p.2 0))

lemma covShape_shapeCov (s : List (List Char × Nat)) : covShape (shapeCov s) = s := by
  induction s with
  | nil => rfl
  | cons p t ih =>
    have hcons : covShape (shapeCov (p :: t)) = (p.1, p.2) :: covShape (shapeCov t) := by
      simp [covShape, shapeCov]
    rw [hcons, ih]

lemma processRecords_isSome_all (d : List (List Char × List Char)) :
    ∀ (rs : List SamRecord) (st : PassState),
      (processRecords d st rs).isSome =
        rs.all (fun r =>
          (stepRecord d ⟨initAgg, shapeCov (covShape st.cov)⟩ r).isSome) := by
  intro rs
  induction rs with
  | nil => intro st; simp [processRecords]
  | cons r rest ih =>
    intro st
    have hsh : covShape (⟨initAgg, shapeCov (covShape st.cov)⟩ : PassState).cov =
        covShape st.cov := covShape_shapeCov _
    have hcongr := stepRecord_isSome_congr d r st
      ⟨initAgg, shapeCov (covShape st.cov)⟩ hsh.symm
    rcases h1 : stepRecord d st r with _ | o
    · rw [h1] at hcongr
      simp only [processRecords, h1, List.all_cons]
      rw [← hcongr]
      simp
    · rw [h1] at hcongr
      simp only [processRecords, h1, List.all_cons]
      rw [← hcongr]
      simp only [Option.isSome_some, Bool.true_and]
      rw [ih o, stepRecord_shape d st r o h1]

lemma perm_all_eq {α : Type} {l1 l2 : List α} (h : l1.Perm l2) (f : α → Bool) :
    l1.all f = l2.all f := by
  by_cases h1 : l1.all f = true
  · rw [h1]
    symm
    rw [List.all_eq_true] at h1 ⊢
    intro x hx
    exact h1 x (h.mem_iff.2 hx)
  · have h2 : ¬ l2.all f = true := by
      intro hc
      apply h1
      rw [List.all_eq_true] at hc ⊢
      intro x hx
      exact hc x (h.mem_iff.1 hx)
    rw [Bool.not_eq_true] at h1 h2
    rw [h1, h2]

/-- C3 counterexample: two records share query id `q` (one contiguous group)
but have different CIGAR outcomes; swapping them — a reorder inside the single
group — changes `total_matches_num` from 2 to 1, because only the group's
first record is folded into the totals. -/
theorem c3_counterexample_reorder_changes_totals :
    Option.map (fun st : PassState => st.agg.total_matches_num)
        (processRecords [(['R'], ['A', 'A'])] ⟨initAgg, [(['R'], [0, 0])]⟩
          [⟨['q'], 0, ['R'], 1, 255, ['2', 'M'], ['A', 'A']⟩,
           ⟨['q'], 0, ['R'], 1, 255, ['2', 'M'], ['A', 'C']⟩]) = some 2 ∧
    Option.map (fun st : PassState => st.agg.total_matches_num)
        (processRecords [(['R'], ['A', 'A'])] ⟨initAgg, [(['R'], [0, 0])]⟩
          [⟨['q'], 0, ['R'], 1, 255, ['2', 'M'], ['A', 'C']⟩,
           ⟨['q'], 0, ['R'], 1, 255, ['2', 'M'], ['A', 'A']⟩]) = some 1 ∧
    Option.map (fun st : PassState => st.agg.total_matches_num)
        (processRecords [(['R'], ['A', 'A'])] ⟨initAgg, [(['R'], [0, 0])]⟩
          [⟨['q'], 0, ['R'], 1, 255, ['2', 'M'], ['A', 'A']⟩,
           ⟨['q'], 0, ['R'], 1, 255, ['2', 'M'], ['A', 'C']⟩]) ≠
      Option.map (fun st : PassState => st.agg.total_matches_num)
        (processRecords [(['R'], ['A', 'A'])] ⟨initAgg, [(['R'], [0, 0])]⟩
          [⟨['q'], 0, ['R'], 1, 255, ['2', 'M'], ['A', 'C']⟩,
           ⟨['q'], 0, ['R'], 1, 255, ['2', 'M'], ['A', 'A']⟩]) := by
  refine ⟨by decide, by decide, by decide⟩

/-- C3 (amended): a permutation inside one contiguous query-id group leaves
the six running totals (and `previous_query_id`) unchanged provided the
group's first record stays first — the totals depend only on each group's
representative, and the tail of the group is ignored entirely.  (The original
claim, without the fixed-first-record proviso, is refuted by the
counterexample.) -/
theorem c3_amended_totals_head_fixed (d : List (List Char × List Char))
    (pre suf t1 t2 : List SamRecord) (h : SamRecord) (st0 : PassState)
    (hperm : t1.Perm t2)
    (hq1 : ∀ r ∈ t1, r.query_id = h.query_id) :
    Option.map PassState.agg (processRecords d st0 (pre ++ (h :: t1) ++ suf)) =
      Option.map PassState.agg (processRecords d st0 (pre ++ (h :: t2) ++ suf)) := by
  rw [List.append_assoc, List.append_assoc, processRecords_append, processRecords_append]
  rcases hpre : processRecords d st0 pre with _ | s1
  · simp
  · simp only [Option.some_bind]
    rcases hstep : stepRecord d s1 h with _ | s2
    · simp [processRecords, hstep]
    · simp only [List.cons_append, processRecords, hstep, List.append_eq]
      rw [processRecords_append, processRecords_append]
      obtain ⟨qs, w, arr, arr2, hrw, hget, hci, hs2⟩ := stepRecord_elim d s1 h s2 hstep
      have hprev : s2.agg.previous_query_id = h.query_id := by
        rw [hs2]; exact aggUpdate_prev _ _ _
      have hq2 : ∀ r ∈ t2, r.query_id = h.query_id := fun r hr =>
        hq1 r (hperm.mem_iff.2 hr)
      have hiso : (processRecords d s2 t1).isSome = (processRecords d s2 t2).isSome := by
        rw [processRecords_isSome_all, processRecords_isSome_all]
        exact perm_all_eq hperm _
      rcases h1 : processRecords d s2 t1 with _ | m1 <;>
        rcases h2 : processRecords d s2 t2 with _ | m2 <;>
        rw [h1, h2] at hiso
      · simp at hiso
      · simp at hiso
      · simp only [Option.some_bind]
        have hm1 : m1.agg = s2.agg := processRecords_same_qid d t1 s2 m1
          (fun r hr => by rw [hprev]; exact hq1 r hr) h1
        have hm2 : m2.agg = s2.agg := processRecords_same_qid d t2 s2 m2
          (fun r hr => by rw [hprev]; exact hq2 r hr) h2
        have hsh1 : covShape m1.cov = covShape s2.cov := processRecords_shape d t1 s2 m1 h1
        have hsh2 : covShape m2.cov = covShape s2.cov := processRecords_shape d t2 s2 m2 h2
        exact processRecords_agg_congr d suf m1 m2 (by rw [hm1, hm2])
          (by rw [hsh1, hsh2])

/-- C3 amended witness: swapping the two tail records of a three-record group
(first record fixed) leaves the whole accumulator unchanged. -/
theorem c3_amended_witness :
    Option.map PassState.agg
        (processRecords [(['R'], ['A', 'A'])] ⟨initAgg, [(['R'], [0, 0])]⟩
          ([] ++ (⟨['q'], 0, ['R'], 1, 255, ['2', 'M'], ['A', 'A']⟩ ::
            [⟨['q'], 0, ['R'], 1, 255, ['2', 'M'], ['A', 'C']⟩,
             ⟨['q'], 0, ['R'], 1, 255, ['1', 'M'], ['A']⟩]) ++ [])) =
      Option.map PassState.agg
        (processRecords [(['R'], ['A', 'A'])] ⟨initAgg, [(['R'], [0, 0])]⟩
          ([] ++ (⟨['q'], 0, ['R'], 1, 255, ['2', 'M'], ['A', 'A']⟩ ::
            [⟨['q'], 0, ['R'], 1, 255, ['1', 'M'], ['A']⟩,
             ⟨['q'], 0, ['R'], 1, 255, ['2', 'M'], ['A', 'C']⟩]) ++ [])) :=
  c3_amended_totals_head_fixed [(['R'], ['A', 'A'])] [] []
    [⟨['q'], 0, ['R'], 1, 255, ['2', 'M'], ['A', 'C']⟩,
     ⟨['q'], 0, ['R'], 1, 255, ['1', 'M'], ['A']⟩]
    [⟨['q'], 0, ['R'], 1, 255, ['1', 'M'], ['A']⟩,
     ⟨['q'], 0, ['R'], 1, 255, ['2', 'M'], ['A', 'C']⟩]
    ⟨['q'], 0, ['R'], 1, 255, ['2', 'M'], ['A', 'A']⟩
    ⟨initAgg, [(['R'], [0, 0])]⟩ (by decide) (by decide)

/-- Adjacent query ids in the sequence of group heads are pairwise distinct
(the grouping precondition of §4.3: groups are maximal runs). -/
def headsAdjDistinct : List (List Char) → Bool
  | a :: b :: rest => decide (a ≠ b) && headsAdjDistinct (b :: rest)
  | _ => true

/-- C4: over a stream that is a concatenation of contiguous query-id groups
(each given as a head record plus tail records sharing its query id, adjacent
groups having distinct ids, the first group's id differing from the initial
`previous_query_id`), a successful pass updates the six totals together
exactly once per group: `total_aligned_contigs_num` grows by the number of
groups, and the other five totals absorb exactly the per-record contributions
of the group heads — never one per raw input line. -/
theorem c4_totals_once_per_group (d : List (List Char × List Char)) :
    ∀ (gs : List (SamRecord × List SamRecord)) (st0 stF : PassState),
      (∀ g ∈ gs, ∀ r ∈ g.2, r.query_id = g.1.query_id) →
      headsAdjDistinct (gs.map (fun g => g.1.query_id)) = true →
      (∀ g gs2, gs = g :: gs2 → g.1.query_id ≠ st0.agg.previous_query_id) →
      processRecords d st0 ((gs.map (fun g => g.1 :: g.2)).flatten) = some stF →
      ∃ T, sumTotals d (gs.map Prod.fst) = some T ∧
        aggTotals stF.agg = addTotals (aggTotals st0.agg) T := by
  intro gs
  induction gs with
  | nil =>
    intro st0 stF _ _ _ hrun
    simp only [List.map_nil, List.flatten_nil, processRecords, Option.some_inj] at hrun
    exact ⟨zeroTotals, rfl, by rw [← hrun, addTotals_zero_right]⟩
  | cons g gs2 ih =>
    rcases g with ⟨rh, rt⟩
    intro st0 stF hq hadj hfirst hrun
    simp only [List.map_cons, List.flatten_cons] at hrun
    rw [processRecords_append] at hrun
    rcases hg : processRecords d st0 (rh :: rt) with _ | mid
    · rw [hg] at hrun
      simp at hrun
    · rw [hg] at hrun
      simp only [Option.some_bind] at hrun
      rcases hstep : stepRecord d st0 rh with _ | s1
      · simp [processRecords, hstep] at hg
      · simp only [processRecords, hstep] at hg
        obtain ⟨qs, w, arr, arr2, hrw, hget, hci, hs1⟩ := stepRecord_elim d st0 rh s1 hstep
        have hne : rh.query_id ≠ st0.agg.previous_query_id := hfirst (rh, rt) gs2 rfl
        have hs1agg : aggTotals s1.agg = addTotals (aggTotals st0.agg)
            ⟨1, rh.query_seq.length, w.matches_num, w.mismatches_num,
              w.indel_num, w.overhang_num⟩ := by
          rw [hs1]
          exact aggUpdate_totals_new st0.agg rh w hne
        have hs1prev : s1.agg.previous_query_id = rh.query_id := by
          rw [hs1]
          exact aggUpdate_prev _ _ _
        have hmid : mid.agg = s1.agg := processRecords_same_qid d rt s1 mid
          (fun r hr => by
            rw [hs1prev]
            exact hq (rh, rt) (List.mem_cons_self _ _) r hr) hg
        have hq2 : ∀ g2 ∈ gs2, ∀ r ∈ g2.2, r.query_id = g2.1.query_id :=
          fun g2 hgm r hr => hq g2 (List.mem_cons_of_mem _ hgm) r hr
        have hadj2 : headsAdjDistinct (gs2.map (fun g2 => g2.1.query_id)) = true := by
          rcases gs2 with _ | ⟨g2, gs3⟩
          · rfl
          · simp only [List.map_cons, headsAdjDistinct, Bool.and_eq_true] at hadj
            exact hadj.2
        have hfirst2 : ∀ g2 gs3, gs2 = g2 :: gs3 →
            g2.1.query_id ≠ mid.agg.previous_query_id := by
          intro g2 gs3 hgs
          rw [hmid, hs1prev]
          subst hgs
          simp only [List.map_cons, headsAdjDistinct, Bool.and_eq_true,
            decide_eq_true_eq] at hadj
          exact Ne.symm hadj.1
        obtain ⟨T2, hT2, hT2agg⟩ := ih mid stF hq2 hadj2 hfirst2 hrun
        have hrt : recTotals d rh = some
            ⟨1, rh.query_seq.length, w.matches_num, w.mismatches_num,
              w.indel_num, w.overhang_num⟩ := by
          simp [recTotals, hrw]
        refine ⟨addTotals
          ⟨1, rh.query_seq.length, w.matches_num, w.mismatches_num,
            w.indel_num, w.overhang_num⟩ T2, ?_, ?_⟩
        · simp only [List.map_cons, sumTotals, hrt, hT2]
        · rw [hT2agg, hmid, hs1agg, addTotals_assoc]

/-- C4 witness: two groups (`q` with a duplicate tail record, then `p`) over a
two-base reference; the totals absorb exactly the two group heads and
`total_aligned_contigs_num = 2` although three lines were read. -/
theorem c4_witness :
    ∃ T, sumTotals [(['R'], ['A', 'A'])]
        [⟨['q'], 0, ['R'], 1, 255, ['2', 'M'], ['A', 'A']⟩,
         ⟨['p'], 0, ['R'], 2, 255, ['1', 'M'], ['A']⟩] = some T ∧
      aggTotals (⟨['p'], 2, 3, 3, 0, 0, 0⟩ : Agg) =
        addTotals (aggTotals (⟨initAgg, [(['R'], [0, 0])]⟩ : PassState).agg) T :=
  c4_totals_once_per_group [(['R'], ['A', 'A'])]
    [(⟨['q'], 0, ['R'], 1, 255, ['2', 'M'], ['A', 'A']⟩,
        [⟨['q'], 0, ['R'], 1, 255, ['1', 'M'], ['A']⟩]),
     (⟨['p'], 0, ['R'], 2, 255, ['1', 'M'], ['A']⟩, [])]
    ⟨initAgg, [(['R'], [0, 0])]⟩ ⟨⟨['p'], 2, 3, 3, 0, 0, 0⟩, [(['R'], [2, 2])]⟩
    (by decide) (by decide)
    (by intro g gs2 hgs; injection hgs with h1 h2; rw [← h1]; decide)
    (by decide)

/-- C5: (i) a successful coverage update increments every position of the
inclusive range `[subject_start, subject_end]` by exactly 1 and leaves every
other position unchanged; (ii) each processed record adds exactly
`subject_end - subject_start + 1` (= `refSpan`) to the coverage sum of its
matched reference and does not touch other references; (iii) hence after a
successful pass every reference's coverage sum equals the initial sum plus
the sum of `refSpan` over all processed records (not deduplicated) mapped to
that reference. -/
theorem c5_coverage_inclusive_range_sum :
    (∀ (l : List Nat) (ss se : Int) (l2 : List Nat), 0 ≤ ss →
      covInc l ss se = some l2 →
      ∀ j : Nat, j < l.length →
        l2.getD j 0 = l.getD j 0 + (if ss ≤ (j : Int) ∧ (j : Int) ≤ se then 1 else 0)) ∧
    (∀ (d : List (List Char × List Char)) (st st2 : PassState) (r : SamRecord),
      stepRecord d st r = some st2 →
      ∃ arr arr2, dictGet? st.cov r.subject_id = some arr ∧
        st2.cov = dictInsert st.cov r.subject_id arr2 ∧
        arr2.sum = arr.sum + refSpan r ∧
        (∀ k, k ≠ r.subject_id → dictGet? st2.cov k = dictGet? st.cov k)) ∧
    (∀ (d : List (List Char × List Char)) (rs : List SamRecord) (st stF : PassState),
      processRecords d st rs = some stF →
      ∀ (k : List Char) (arrS arrF : List Nat),
        dictGet? st.cov k = some arrS → dictGet? stF.cov k = some arrF →
        arrF.sum = arrS.sum +
          ((rs.filter (fun r => decide (r.subject_id = k))).map refSpan).sum) := by
  refine ⟨?_, ?_, ?_⟩
  · intro l ss se l2 h0 h j hj
    have hg := covIncRange_getD ((se + 1 - ss).toNat) l ss l2 h0 h j hj
    rw [hg]
    by_cases hc : ss ≤ (j : Int) ∧ (j : Int) ≤ se
    · rw [if_pos (by omega), if_pos hc]
    · rw [if_neg (by omega), if_neg hc]
  · intro d st st2 r h
    obtain ⟨qs, w, arr, arr2, hrw, hget, hci, hst⟩ := stepRecord_elim d st r st2 h
    refine ⟨arr, arr2, hget, by rw [hst], ?_, ?_⟩
    · have hsum := covInc_sum arr _ _ arr2 hci
      have hse := recordWalk_subject_end d r qs w hrw
      rw [hsum, hse]
      congr 1
      omega
    · intro k hk
      rw [hst]
      exact dictGet?_insert_ne st.cov r.subject_id arr2 k hk
  · intro d rs
    induction rs with
    | nil =>
      intro st stF h k arrS arrF hS hF
      simp only [processRecords, Option.some_inj] at h
      subst h
      rw [hS] at hF
      simp only [Option.some_inj] at hF
      simp [← hF]
    | cons r rest ih =>
      intro st stF h k arrS arrF hS hF
      rcases h1 : stepRecord d st r with _ | o
      · simp [processRecords, h1] at h
      · simp only [processRecords, h1] at h
        obtain ⟨qs, w, arr, arr2, hrw, hget, hci, ho⟩ := stepRecord_elim d st r o h1
        have hsum2 : arr2.sum = arr.sum + refSpan r := by
          have hsum := covInc_sum arr _ _ arr2 hci
          have hse := recordWalk_subject_end d r qs w hrw
          rw [hsum, hse]
          congr 1
          omega
        by_cases hk : r.subject_id = k
        · subst hk
          have harr : arr = arrS := by
            rw [hget] at hS
            exact Option.some_inj.1 hS
          have hgetO : dictGet? o.cov r.subject_id = some arr2 := by
            rw [ho]
            exact dictGet?_insert_self _ _ _
          have hrec := ih o stF h r.subject_id arr2 arrF hgetO hF
          rw [hrec, hsum2, harr]
          simp [List.filter_cons]
          omega
        · have hgetO : dictGet? o.cov k = some arrS := by
            rw [ho]
            rw [dictGet?_insert_ne st.cov r.subject_id arr2 k (Ne.symm hk)]
            exact hS
          have hrec := ih o stF h k arrS arrF hgetO hF
          rw [hrec]
          simp [List.filter_cons, hk]

/-- C5 witness: a `2M` record at position 1 over a two-base reference — the
coverage array goes from `[0, 0]` to `[1, 1]`: position 0 gains exactly 1,
and the array sum grows by `refSpan = 2`. -/
theorem c5_witness :
    (([1, 1] : List Nat).getD 0 0 = ([0, 0] : List Nat).getD 0 0 +
      (if (0 : Int) ≤ ((0 : Nat) : Int) ∧ ((0 : Nat) : Int) ≤ (1 : Int) then 1 else 0)) ∧
    ([1, 1] : List Nat).sum = ([0, 0] : List Nat).sum +
      ((([⟨['q'], 0, ['R'], 1, 255, ['2', 'M'], ['A', 'A']⟩] : List SamRecord).filter
          (fun r => decide (r.subject_id = ['R']))).map refSpan).sum := by
  constructor
  · exact c5_coverage_inclusive_range_sum.1 [0, 0] 0 1 [1, 1] (by decide) (by decide)
      0 (by decide)
  · exact c5_coverage_inclusive_range_sum.2.2 [(['R'], ['A', 'A'])]
      [⟨['q'], 0, ['R'], 1, 255, ['2', 'M'], ['A', 'A']⟩]
      ⟨initAgg, [(['R'], [0, 0])]⟩
      ⟨⟨['q'], 1, 2, 2, 0, 0, 0⟩, [(['R'], [1, 1])]⟩
      (by decide) ['R'] [0, 0] [1, 1] (by decide) (by decide)

/-- C10 counterexample: a record whose `subject_start` plus total `M`/`D`
length exceeds the reference length (the claim's definition of running past
the end), yet whose walk touches no reference position (`3S` only): the run
does NOT abort — the claim's "for any record" is too strong. -/
theorem c10_counterexample_zero_span :
    ((2 : Int) < ((5 : Int) - 1) +
      refSpan ⟨['q'], 0, ['R'], 5, 255, ['3', 'S'], ['G', 'G', 'G']⟩) ∧
    (stepRecord [(['R'], ['A', 'C'])] ⟨initAgg, [(['R'], [0, 0])]⟩
      ⟨['q'], 0, ['R'], 5, 255, ['3', 'S'], ['G', 'G', 'G']⟩).isSome = true := by
  refine ⟨by decide, by decide⟩

/-- C10 (amended): the walker and coverage loop perform no bounds checking:
whenever a record's walk actually consumes at least one reference position
(`refSpan ≥ 1`) and `subject_start + refSpan` exceeds the length of the
matched reference (whose coverage array has matching length), the step aborts
the run (`none`, modelling the Python `IndexError`); records with
`refSpan = 0` are the only exception (see the counterexample). -/
theorem c10_amended_out_of_bounds_aborts (d : List (List Char × List Char))
    (st : PassState) (r : SamRecord) (seq : List Char) (arr : List Nat)
    (hseq : dictGet? d r.subject_id = some seq)
    (harr : dictGet? st.cov r.subject_id = some arr)
    (hlen : arr.length = seq.length)
    (hpos : 1 ≤ r.first_pos)
    (hspan : 1 ≤ refSpan r)
    (hover : (seq.length : Int) < (r.first_pos - 1) + refSpan r) :
    stepRecord d st r = none := by
  rcases hout : stepRecord d st r with _ | st2
  · rfl
  · exfalso
    obtain ⟨qs, w, arr0, arr2, hrw, hget, hci, _⟩ := stepRecord_elim d st r st2 hout
    have harr0 : arr = arr0 := Option.some_inj.1 (harr.symm.trans hget)
    have hse := recordWalk_subject_end d r qs w hrw
    have hn : (w.subject_end + 1 - (r.first_pos - 1)).toNat = refSpan r := by
      rw [hse]
      omega
    have hbound := covIncRange_bound ((w.subject_end + 1 - (r.first_pos - 1)).toNat)
      arr0 (r.first_pos - 1) arr2 (by omega) (by rw [hn]; omega) hci
    rw [hn] at hbound
    rw [← harr0, hlen] at hbound
    omega

/-- C10 amended witness: a `3M` record at position 1 against a two-base
reference aborts the run. -/
theorem c10_witness :
    stepRecord [(['R'], ['A', 'C'])] ⟨initAgg, [(['R'], [0, 0])]⟩
      ⟨['q'], 0, ['R'], 1, 255, ['3', 'M'], ['A', 'A', 'A']⟩ = none :=
  c10_amended_out_of_bounds_aborts [(['R'], ['A', 'C'])]
    ⟨initAgg, [(['R'], [0, 0])]⟩
    ⟨['q'], 0, ['R'], 1, 255, ['3', 'M'], ['A', 'A', 'A']⟩
    ['A', 'C'] [0, 0] (by decide) (by decide) (by decide) (by decide) (by decide)
    (by decide)

/-- C2 (code bug): with a non-empty reference catalog and an empty alignment
stream the pass succeeds with `total_aligned_contigs_length = 0`, and the
error-rate computation of source line 171 — modelled by `errors_num_per_kbp`,
where `none` is the uncaught `ZeroDivisionError` — divides by zero instead of
reporting an explicit "no data" result as the claim requires. -/
theorem c2_zero_division_on_empty_stream :
    ∃ rd st, loadRefs (read_fasta_file_handle
        [['>', 'R', '1'], ['A', 'A', 'A', 'A']]) = some rd ∧
      processRecords rd.ref_seq_dict ⟨initAgg, rd.ref_positions_count_dict⟩ [] =
        some st ∧
      st.agg.total_aligned_contigs_length = 0 ∧
      errors_num_per_kbp st.agg = none := by
  refine ⟨⟨[(['R', '1'], ['A', 'A', 'A', 'A'])], [(['R', '1'], [0, 0, 0, 0])], 4⟩,
    ⟨initAgg, [(['R', '1'], [0, 0, 0, 0])]⟩, by decide, by decide, by decide, rfl⟩

lemma dictInsert_new {α : Type} :
    ∀ (d : List (List Char × α)) (k : List Char) (v : α),
      dictGet? d k = none → dictInsert d k v = d ++ [(k, v)] := by
  intro d
  induction d with
  | nil => intro k v _; rfl
  | cons p rest ih =>
    intro k v h
    by_cases hp : p.1 = k
    · simp [dictGet?, hp] at h
    · have h2 : dictGet? rest k = none := by simp [dictGet?, hp] at h; exact h
      simp [dictInsert, hp, ih k v h2]

lemma loadRefsGo_total :
    ∀ (pairs : List (List Char × List Char)) (rd rd2 : RefData),
      loadRefsGo rd pairs = some rd2 →
      rd2.total_ref_length =
        rd.total_ref_length + (pairs.map (fun p => p.2.length)).sum := by
  intro pairs
  induction pairs with
  | nil =>
    intro rd rd2 h
    simp only [loadRefsGo, Option.some_inj] at h
    rw [← h]
    simp
  | cons p rest ih =>
    rcases p with ⟨hdr, seq⟩
    intro rd rd2 h
    rcases ht : headToken hdr with _ | tok
    · simp [loadRefsGo, ht] at h
    · simp only [loadRefsGo, ht] at h
      have hrec := ih _ rd2 h
      rw [hrec]
      simp only [List.map_cons, List.sum_cons]
      omega

lemma loadRefsGo_cov_sum :
    ∀ (pairs : List (List Char × List Char)) (rd rd2 : RefData),
      loadRefsGo rd pairs = some rd2 →
      (∀ p ∈ pairs, ∀ tok, headToken p.1 = some tok →
        dictGet? rd.ref_positions_count_dict tok = none) →
      List.Pairwise (fun a b => headToken a.1 ≠ headToken b.1) pairs →
      (rd2.ref_positions_count_dict.map (fun p => p.2.length)).sum =
        (rd.ref_positions_count_dict.map (fun p => p.2.length)).sum +
          (pairs.map (fun p => p.2.length)).sum := by
  intro pairs
  induction pairs with
  | nil =>
    intro rd rd2 h _ _
    simp only [loadRefsGo, Option.some_inj] at h
    rw [← h]
    simp
  | cons p rest ih =>
    rcases p with ⟨hdr, seq⟩
    intro rd rd2 h hnew hpw
    rcases ht : headToken hdr with _ | tok
    · simp [loadRefsGo, ht] at h
    · simp only [loadRefsGo, ht] at h
      have hnone : dictGet? rd.ref_positions_count_dict tok = none :=
        hnew (hdr, seq) (List.mem_cons_self _ _) tok ht
      have hins := dictInsert_new rd.ref_positions_count_dict tok
        (List.replicate seq.length 0) hnone
      have hnew2 : ∀ p2 ∈ rest, ∀ tok2, headToken p2.1 = some tok2 →
          dictGet? (dictInsert rd.ref_positions_count_dict tok
            (List.replicate seq.length 0)) tok2 = none := by
        intro p2 hp2 tok2 ht2
        have hne : headToken (hdr, seq).1 ≠ headToken p2.1 :=
          (List.pairwise_cons.1 hpw).1 p2 hp2
        have htk : tok2 ≠ tok := by
          intro hc
          apply hne
          rw [ht, ht2, hc]
        rw [dictGet?_insert_ne _ _ _ _ htk]
        exact hnew p2 (List.mem_cons_of_mem _ hp2) tok2 ht2
      have hpw2 := (List.pairwise_cons.1 hpw).2
      have hrec := ih _ rd2 h hnew2 hpw2
      rw [hrec]
      simp only [hins, List.map_append, List.sum_append, List.map_cons,
        List.sum_cons, List.map_nil, List.sum_nil, List.length_replicate]
      omega

lemma bucketize_length (bs : List Nat) (pc : Nat) (h : bs.length = 11) :
    (bucketize bs pc).length = 11 := by
  unfold bucketize
  split_ifs <;> simp [List.length_set, h]

lemma bucketize_sum (bs : List Nat) (pc : Nat) (h : bs.length = 11) :
    (bucketize bs pc).sum = bs.sum + 1 := by
  unfold bucketize
  split_ifs with hc
  · exact sum_set_incr bs 10 (by omega)
  · exact sum_set_incr bs pc (by omega)

lemma foldl_bucketize (arr : List Nat) :
    ∀ (bs : List Nat), bs.length = 11 →
      (arr.foldl bucketize bs).sum = bs.sum + arr.length ∧
      (arr.foldl bucketize bs).length = 11 := by
  induction arr with
  | nil => intro bs h; exact ⟨by simp, h⟩
  | cons a tl ih =>
    intro bs h
    simp only [List.foldl_cons, List.length_cons]
    obtain ⟨hs, hl⟩ := ih (bucketize bs a) (bucketize_length bs a h)
    refine ⟨?_, hl⟩
    rw [hs, bucketize_sum bs a h]
    omega

lemma coverage_count_list_sum (cov : List (List Char × List Nat)) :
    (coverage_count_list cov).sum = (cov.map (fun p => p.2.length)).sum := by
  suffices hgen : ∀ (cov2 : List (List Char × List Nat)) (bs : List Nat),
      bs.length = 11 →
      ((cov2.foldl (fun bs2 p => p.2.foldl bucketize bs2) bs).sum =
        bs.sum + (cov2.map (fun p => p.2.length)).sum ∧
      (cov2.foldl (fun bs2 p => p.2.foldl bucketize bs2) bs).length = 11) by
    have hz := (hgen cov (List.replicate 11 0) (by simp)).1
    rw [coverage_count_list, hz]
    simp
  intro cov2
  induction cov2 with
  | nil => intro bs h; simp [h]
  | cons p tl ih =>
    intro bs h
    simp only [List.foldl_cons, List.map_cons, List.sum_cons]
    obtain ⟨h1, h2⟩ := foldl_bucketize p.2 bs h
    obtain ⟨h3, h4⟩ := ih (p.2.foldl bucketize bs) h2
    refine ⟨?_, h4⟩
    rw [h3, h1]
    omega

/-- C8 counterexample: a reference file with the same id `R` twice (each
sequence of length 2).  `total_ref_length` is accumulated per input record
(= 4) while the catalog keeps only the last entry per id, so after a complete
(empty) pass the 11 bucket counts sum to 2, not to `total_ref_length` — the
claim's parenthetical "including when the reference file contains repeated
ids" is exactly the case where the equality fails. -/
theorem c8_counterexample_duplicate_ids :
    ∃ rd st, loadRefs [(['R'], ['A', 'A']), (['R'], ['A', 'A'])] = some rd ∧
      processRecords rd.ref_seq_dict ⟨initAgg, rd.ref_positions_count_dict⟩ [] =
        some st ∧
      rd.total_ref_length = 4 ∧
      (coverage_count_list st.cov).sum = 2 ∧
      (coverage_count_list st.cov).sum ≠ rd.total_ref_length := by
  refine ⟨⟨[(['R'], ['A', 'A'])], [(['R'], [0, 0])], 4⟩,
    ⟨initAgg, [(['R'], [0, 0])]⟩, by decide, by decide, by decide, by decide, by decide⟩

/-- C8 (amended): every reference position lands in exactly one of the 11
depth buckets, so the bucket counts always sum to the total length of the
coverage arrays actually stored in the (last-entry-per-id) catalog — a
quantity the pass preserves; this equals `total_reference_length` when the
reference ids are pairwise distinct, but with repeated ids
`total_reference_length` double-counts the replaced entries and exceeds the
bucket sum. -/
theorem c8_amended_histogram_sum :
    (∀ cov : List (List Char × List Nat),
      (coverage_count_list cov).sum = (cov.map (fun p => p.2.length)).sum) ∧
    (∀ (pairs : List (List Char × List Char)) (rd : RefData),
      loadRefs pairs = some rd →
      List.Pairwise (fun a b => headToken a.1 ≠ headToken b.1) pairs →
      (coverage_count_list rd.ref_positions_count_dict).sum = rd.total_ref_length) ∧
    (∀ (d : List (List Char × List Char)) (rs : List SamRecord) (st stF : PassState),
      processRecords d st rs = some stF →
      (coverage_count_list stF.cov).sum = (coverage_count_list st.cov).sum) := by
  refine ⟨coverage_count_list_sum, ?_, ?_⟩
  · intro pairs rd hload hpw
    have h1 := loadRefsGo_total pairs ⟨[], [], 0⟩ rd hload
    have h2 := loadRefsGo_cov_sum pairs ⟨[], [], 0⟩ rd hload
      (fun p hp tok ht => rfl) hpw
    rw [coverage_count_list_sum, h2, h1]
    simp
  · intro d rs st stF h
    rw [coverage_count_list_sum, coverage_count_list_sum]
    have hsh := processRecords_shape d rs st stF h
    have hmap := congrArg (fun s => (s.map Prod.snd).sum) hsh
    simpa [covShape, List.map_map, Function.comp] using hmap

/-- C8 amended witness: a single-reference catalog (`R1`, length 2) with a
one-record pass — the histogram sums to 2 in all three senses. -/
theorem c8_witness :
    (coverage_count_list [(['R', '1'], [0, 0])]).sum =
      ([(['R', '1'], ([0, 0] : List Nat))].map (fun p => p.2.length)).sum ∧
    (coverage_count_list
      (RefData.ref_positions_count_dict
        ⟨[(['R', '1'], ['A', 'A'])], [(['R', '1'], [0, 0])], 2⟩)).sum =
      RefData.total_ref_length
        ⟨[(['R', '1'], ['A', 'A'])], [(['R', '1'], [0, 0])], 2⟩ ∧
    (coverage_count_list
      (PassState.cov ⟨⟨['q'], 1, 2, 2, 0, 0, 0⟩, [(['R', '1'], [1, 1])]⟩)).sum =
      (coverage_count_list
        (PassState.cov (⟨initAgg, [(['R', '1'], [0, 0])]⟩ : PassState))).sum := by
  refine ⟨?_, ?_, ?_⟩
  · exact c8_amended_histogram_sum.1 [(['R', '1'], [0, 0])]
  · exact c8_amended_histogram_sum.2.1 [(['R', '1'], ['A', 'A'])]
      ⟨[(['R', '1'], ['A', 'A'])], [(['R', '1'], [0, 0])], 2⟩ (by decide) (by decide)
  · exact c8_amended_histogram_sum.2.2 [(['R', '1'], ['A', 'A'])]
      [⟨['q'], 0, ['R', '1'], 1, 255, ['2', 'M'], ['A', 'A']⟩]
      ⟨initAgg, [(['R', '1'], [0, 0])]⟩
      ⟨⟨['q'], 1, 2, 2, 0, 0, 0⟩, [(['R', '1'], [1, 1])]⟩ (by decide)
